import Mathlib

/-!
# Smart Inventory Assistant — ledger and stock-health verification

Shallow embedding of the inventory ledger and stock-health analytics engine
of the smart-inventory-assistant repository.

The SQL schema (`inventory_transactions` table, `stock_health` view) is
embedded directly from `database/schema.sql`.  The write-path validator,
bulk commit, reorder estimator and `listHealth` query live in the backend
service code, which is not part of the source tree given here; those are
modelled from the specification, as marked in their doc comments.

Numeric conventions: stock quantities and movement quantities are SQL
INTEGER columns, embedded as `Int`; dates are a totally ordered day index,
embedded as `Nat`; the `stock_health` view's `AVG` and division are exact
real arithmetic, embedded as `ℚ`.
-/

namespace SmartInventory

/-- One row of the `inventory_transactions` table (schema.sql):
(location_id, item_id, date, opening_stock, received, issued, closing_stock).
Free-text notes, author tag and creation timestamp carry no computational
content and are omitted. -/
structure Txn where
  location_id : Nat
  item_id : Nat
  date : Nat
  opening_stock : Int
  received : Int
  issued : Int
  closing_stock : Int
deriving DecidableEq, Repr

/-- A candidate single-row submission, per the write interface
`addTransaction({location_id, item_id, date, received, issued, ...})`
with an optional caller-supplied opening-stock override. -/
structure Candidate where
  location_id : Nat
  item_id : Nat
  date : Nat
  received : Int
  issued : Int
  opening_override : Option Int
deriving DecidableEq, Repr

/-- One row of a bulk submission: `{item_id, received, issued}` plus the
optional opening-stock override; location and date are shared by the batch. -/
structure BulkRow where
  item_id : Nat
  received : Int
  issued : Int
  opening_override : Option Int
deriving DecidableEq, Repr

/-- The error taxonomy of the continuity validator.  `continuityError`
carries the expected and the supplied opening stock. -/
inductive CommitError where
  | validationError
  | continuityError (expected supplied : Int)
  | negativeStockError
deriving DecidableEq, Repr

/-- All transactions of one (location, item) pair, in commit order. -/
def pairTxns (s : List Txn) (l i : Nat) : List Txn :=
  s.filter fun t => t.location_id == l && t.item_id == i

/-- Fold step: keep the transaction with the larger date (later element wins
ties). -/
def latestAux (m : Txn) : List Txn → Txn
  | [] => m
  | t :: ts => latestAux (if m.date ≤ t.date then t else m) ts

/-- The most recent (maximal-date) transaction of a list, if any. -/
def latest? : List Txn → Option Txn
  | [] => none
  | t :: ts => some (latestAux t ts)

/-- Modelled from the spec: the tail of the continuity validator
(backend `inventory_service` is absent from the source tree).  Given the
expected opening stock (prior closing stock, or the seed), check the
supplied override against it, compute the closing stock, and reject a
negative closing stock rather than clamp it. -/
def finishTxn (c : Candidate) (expected : Int) : Except CommitError Txn :=
  if c.opening_override.getD expected ≠ expected then
    .error (.continuityError expected (c.opening_override.getD expected))
  else if expected + c.received - c.issued < 0 then
    .error .negativeStockError
  else
    .ok ⟨c.location_id, c.item_id, c.date, expected, c.received, c.issued,
          expected + c.received - c.issued⟩

/-- Modelled from the spec: the continuity validator (§4.1; backend
`inventory_service` is absent from the source tree).  Rejects negative
quantities, a date not later than the pair's most recent transaction,
an opening stock that does not reconcile with the prior closing stock,
and a computed closing stock below zero.  The seed `v` plays the role of
the caller-supplied opening value for a pair with no history. -/
def validate (s : List Txn) (c : Candidate) (v : Int) : Except CommitError Txn :=
  if 0 ≤ c.received ∧ 0 ≤ c.issued then
    match latest? (pairTxns s c.location_id c.item_id) with
    | some p => if p.date < c.date then finishTxn c p.closing_stock else .error .validationError
    | none => finishTxn c v
  else .error .validationError

/-- Modelled from the spec: single-row commit — on success appends exactly
one transaction row. -/
def addTransaction (s : List Txn) (c : Candidate) (v : Int) :
    Except CommitError (List Txn) :=
  (validate s c v).map fun t => s ++ [t]

/-- Turn a bulk row into a candidate for the batch's location and date. -/
def BulkRow.toCandidate (r : BulkRow) (l d : Nat) : Candidate :=
  ⟨l, r.item_id, d, r.received, r.issued, r.opening_override⟩

/-- Modelled from the spec: validate the rows of a batch one after the
other; the first failure aborts with the failing item and its reason. -/
def bulkGo (l d : Nat) (f : Nat → Int) : List Txn → List BulkRow →
    Except (Nat × CommitError) (List Txn)
  | s, [] => .ok s
  | s, r :: rs =>
    match validate s (r.toCandidate l d) (f r.item_id) with
    | .error e => .error (r.item_id, e)
    | .ok t => bulkGo l d f (s ++ [t]) rs

/-- Modelled from the spec: atomic multi-row commit for one location and
date (§4.1).  `f` supplies the seed opening value per item. -/
def addBulkTransaction (s : List Txn) (l d : Nat) (rs : List BulkRow)
    (f : Nat → Int) : Except (Nat × CommitError) (List Txn) :=
  bulkGo l d f s rs

/-- The ledger state after a bulk submission: the new ledger on success,
the unchanged ledger on failure (nothing is persisted). -/
def commitBulk (s : List Txn) (l d : Nat) (rs : List BulkRow)
    (f : Nat → Int) : List Txn :=
  match addBulkTransaction s l d rs f with
  | .ok s' => s'
  | .error _ => s

/-- Ledger states reachable from the empty ledger through committed single
and bulk submissions. -/
inductive Reachable : List Txn → Prop
  | nil : Reachable []
  | step (s : List Txn) (c : Candidate) (v : Int) (s' : List Txn) :
      Reachable s → addTransaction s c v = .ok s' → Reachable s'
  | bulk (s : List Txn) (l d : Nat) (rs : List BulkRow) (f : Nat → Int)
      (s' : List Txn) :
      Reachable s → addBulkTransaction s l d rs f = .ok s' → Reachable s'

/-! ## The `stock_health` view (schema.sql) -/

/-- Date order on transactions, used by the view's
`ORDER BY t.date` window clause. -/
def dateLE (a b : Txn) : Prop := a.date ≤ b.date

instance : DecidableRel dateLE := fun a b => inferInstanceAs (Decidable (a.date ≤ b.date))

instance : IsTotal Txn dateLE := ⟨fun a b => Nat.le_total a.date b.date⟩

instance : IsTrans Txn dateLE := ⟨fun _ _ _ h h' => Nat.le_trans h h'⟩

/-- The pair's transactions dated on or before the anchor date: the rows the
view's window `PARTITION BY location_id, item_id ORDER BY date` can see at
the anchor. -/
def pairUpTo (s : List Txn) (l i a : Nat) : List Txn :=
  s.filter fun t => t.location_id == l && t.item_id == i && t.date ≤ a

/-- `pairUpTo`, ordered by date ascending as the window clause requires. -/
def sortedPairUpTo (s : List Txn) (l i a : Nat) : List Txn :=
  (pairUpTo s l i a).insertionSort dateLE

/-- The trailing window `ROWS BETWEEN 6 PRECEDING AND CURRENT ROW` at the
anchor date: the last up-to-7 rows of the date-ordered history. -/
def windowTxns (s : List Txn) (l i a : Nat) : List Txn :=
  (sortedPairUpTo s l i a).drop ((sortedPairUpTo s l i a).length - 7)

/-- The view's `avg_daily_usage` column:
`AVG(t.issued) OVER (PARTITION BY location_id, item_id ORDER BY date
ROWS BETWEEN 6 PRECEDING AND CURRENT ROW)`, with the spec's edge case that
an empty window yields 0 rather than an error (the backend calculator is
absent from the source tree). -/
def avg_daily_usage (s : List Txn) (l i a : Nat) : ℚ :=
  if (windowTxns s l i a).length = 0 then 0
  else ((windowTxns s l i a).map fun t => (t.issued : ℚ)).sum /
        ((windowTxns s l i a).length : ℚ)

/-- The view's `days_remaining` column:
`CASE WHEN avg > 0 THEN closing_stock / avg ELSE 999 END`. -/
def days_remaining (stock : Int) (avg : ℚ) : ℚ :=
  if 0 < avg then (stock : ℚ) / avg else 999

/-- The three status labels of the view's `health_status` column. -/
inductive HealthStatus where
  | CRITICAL
  | WARNING
  | HEALTHY
deriving DecidableEq, Repr

/-- The view's `health_status` column:
`CASE WHEN d < 3 THEN 'CRITICAL' WHEN d BETWEEN 3 AND 7 THEN 'WARNING'
ELSE 'HEALTHY' END` applied to `days_remaining` (`BETWEEN` is inclusive on
both ends). -/
def health_status (d : ℚ) : HealthStatus :=
  if d < 3 then .CRITICAL
  else if 3 ≤ d ∧ d ≤ 7 then .WARNING
  else .HEALTHY

/-- Modelled from the spec: the Reorder Estimator (§4.4; backend
`analytics_service` is absent from the source tree):
`suggested = max(0, avg_usage * lead_time_days * safety_factor - current_stock)`. -/
def suggested_reorder (avg lead safety stock : ℚ) : ℚ :=
  max 0 (avg * lead * safety - stock)

/-! ## The `listHealth` query (spec §6) -/

/-- One response row of `listHealth`.  The joined display columns
(location_name, item_name, category) are reference data with no
computational content and are omitted. -/
structure HealthRow where
  location_id : Nat
  item_id : Nat
  current_stock : Int
  avg_usage : ℚ
  d_remaining : ℚ
  status : HealthStatus
  last_updated : Nat
deriving DecidableEq, Repr

/-- The distinct (location, item) pairs appearing in the ledger. -/
def pairKeys (s : List Txn) : List (Nat × Nat) :=
  (s.map fun t => (t.location_id, t.item_id)).dedup

/-- Does a pair pass the optional location/item filters of `listHealth`? -/
def matchesFilter (p : Nat × Nat) (lf f : Option Nat) : Bool :=
  (match lf with | none => true | some a => a == p.1)
    && (match f with | none => true | some b => b == p.2)

/-- Modelled from the spec: the health record of one pair, computed from the
pair's most recent transaction (backend `queries.py` is absent from the
source tree); `none` when the pair has no transactions. -/
def healthRow (s : List Txn) (p : Nat × Nat) : Option HealthRow :=
  (latest? (pairTxns s p.1 p.2)).map fun t =>
    let avg := avg_daily_usage s p.1 p.2 t.date
    let d := days_remaining t.closing_stock avg
    ⟨p.1, p.2, t.closing_stock, avg, d, health_status d, t.date⟩

/-- Modelled from the spec: `listHealth(locationId?, itemId?)` — one row per
(location, item) pair with history, from that pair's most recent
transaction; pairs with no history contribute nothing (empty result, not an
error). -/
def listHealth (s : List Txn) (lf f : Option Nat) : List HealthRow :=
  ((pairKeys s).filter fun p => matchesFilter p lf f).filterMap (healthRow s)

/-! ## Per-row and per-pair ledger invariants -/

/-- The row invariants of §3: exact closing-stock arithmetic and
non-negative quantities. -/
def RowInv (t : Txn) : Prop :=
  t.closing_stock = t.opening_stock + t.received - t.issued ∧
    0 ≤ t.received ∧ 0 ≤ t.issued ∧ 0 ≤ t.closing_stock

/-- Two consecutive transactions of one pair: strictly increasing dates and
chain continuity of stock. -/
def chainRel (a b : Txn) : Prop :=
  a.date < b.date ∧ b.opening_stock = a.closing_stock

/-- The full ledger invariant: every row satisfies `RowInv` and every pair's
transaction list is a continuity chain. -/
def LedgerInv (s : List Txn) : Prop :=
  (∀ t ∈ s, RowInv t) ∧ ∀ l i, List.Chain' chainRel (pairTxns s l i)

/-- Strict date order on transactions. -/
def dateLT (a b : Txn) : Prop := a.date < b.date

instance : IsTrans Txn dateLT := ⟨fun _ _ _ => Nat.lt_trans⟩

/-- The opening stock the validator expects: the prior closing stock when
the pair has history, else the caller-supplied seed. -/
def expectedOpening (s : List Txn) (c : Candidate) (v : Int) : Int :=
  match latest? (pairTxns s c.location_id c.item_id) with
  | some p => p.closing_stock
  | none => v

/-! ## Demonstration ledger used by the witnesses -/

/-- Concrete first commit: pair (1,1), day 1, seed opening 0, receive 100. -/
def demoC : Candidate := ⟨1, 1, 1, 100, 0, none⟩

/-- The transaction row the validator derives from `demoC`. -/
def demoTxn : Txn := ⟨1, 1, 1, 0, 100, 0, 100⟩

/-- The one-row ledger after committing `demoC` to the empty ledger. -/
def demoLedger : List Txn := [demoTxn]

lemma mem_pairTxns {s : List Txn} {l i : Nat} {t : Txn} :
    t ∈ pairTxns s l i ↔ t ∈ s ∧ t.location_id = l ∧ t.item_id = i := by
  simp [pairTxns, List.mem_filter, and_assoc]

lemma pairTxns_append (s : List Txn) (t : Txn) (l i : Nat) :
    pairTxns (s ++ [t]) l i =
      pairTxns s l i ++ if t.location_id = l ∧ t.item_id = i then [t] else [] := by
  by_cases h1 : t.location_id = l
  · by_cases h2 : t.item_id = i
    · simp [pairTxns, List.filter_append, h1, h2]
    · simp [pairTxns, List.filter_append, h1, h2]
  · simp [pairTxns, List.filter_append, h1]

lemma latestAux_mem (m : Txn) (ts : List Txn) : latestAux m ts ∈ m :: ts := by
  induction ts generalizing m with
  | nil => simp [latestAux]
  | cons t ts ih =>
    have h := ih (if m.date ≤ t.date then t else m)
    by_cases hd : m.date ≤ t.date
    · rw [if_pos hd] at h
      simp only [latestAux, if_pos hd]
      exact List.mem_cons_of_mem _ h
    · rw [if_neg hd] at h
      rcases List.mem_cons.1 h with h' | h'
      · simp [latestAux, hd, h']
      · simp only [latestAux, if_neg hd]
        exact List.mem_cons_of_mem _ (List.mem_cons_of_mem _ h')

lemma latestAux_le (m : Txn) (ts : List Txn) :
    ∀ x ∈ m :: ts, x.date ≤ (latestAux m ts).date := by
  induction ts generalizing m with
  | nil =>
    intro x hx
    rcases List.mem_singleton.1 hx with rfl
    exact le_refl _
  | cons t ts ih =>
    intro x hx
    have hm : m.date ≤ (latestAux (if m.date ≤ t.date then t else m) ts).date := by
      have := ih (if m.date ≤ t.date then t else m) _ (List.mem_cons_self _ _)
      by_cases hd : m.date ≤ t.date
      · rw [if_pos hd] at this ⊢
        exact le_trans hd this
      · rwa [if_neg hd] at this ⊢
    have ht : t.date ≤ (latestAux (if m.date ≤ t.date then t else m) ts).date := by
      have := ih (if m.date ≤ t.date then t else m) _ (List.mem_cons_self _ _)
      by_cases hd : m.date ≤ t.date
      · rwa [if_pos hd] at this ⊢
      · rw [if_neg hd] at this ⊢
        exact le_trans (Nat.le_of_not_le hd) this
    rcases List.mem_cons.1 hx with rfl | hx'
    · simpa [latestAux] using hm
    · rcases List.mem_cons.1 hx' with rfl | hx''
      · simpa [latestAux] using ht
      · simpa [latestAux] using
          ih (if m.date ≤ t.date then t else m) _ (List.mem_cons_of_mem _ hx'')

lemma latest?_eq_none_iff {ts : List Txn} : latest? ts = none ↔ ts = [] := by
  cases ts <;> simp [latest?]

lemma latest?_mem {ts : List Txn} {m : Txn} (h : latest? ts = some m) : m ∈ ts := by
  cases ts with
  | nil => cases h
  | cons t ts =>
    simp only [latest?, Option.some.injEq] at h
    exact h ▸ latestAux_mem t ts

lemma latest?_le {ts : List Txn} {m : Txn} (h : latest? ts = some m) :
    ∀ x ∈ ts, x.date ≤ m.date := by
  cases ts with
  | nil => cases h
  | cons t ts =>
    simp only [latest?, Option.some.injEq] at h
    exact h ▸ latestAux_le t ts

lemma latestAux_of_chain (m : Txn) (ts : List Txn)
    (h : List.Chain (fun a b => a.date < b.date) m ts) :
    latestAux m ts = ts.getLast?.getD m := by
  induction ts generalizing m with
  | nil => rfl
  | cons t ts ih =>
    rcases List.chain_cons.1 h with ⟨h1, h2⟩
    simp only [latestAux, if_pos (Nat.le_of_lt h1), List.getLast?_cons,
      Option.getD_some]
    exact ih t h2

lemma latest?_of_chain {ts : List Txn}
    (h : List.Chain' (fun a b => a.date < b.date) ts) :
    latest? ts = ts.getLast? := by
  cases ts with
  | nil => rfl
  | cons t ts =>
    simp only [latest?, List.getLast?_cons]
    exact congrArg some (latestAux_of_chain t ts h)

lemma finishTxn_ok {c : Candidate} {w : Int} {t : Txn} :
    finishTxn c w = .ok t ↔
      c.opening_override.getD w = w ∧ 0 ≤ w + c.received - c.issued ∧
        t = ⟨c.location_id, c.item_id, c.date, w, c.received, c.issued,
              w + c.received - c.issued⟩ := by
  unfold finishTxn
  split_ifs with h1 h2
  · constructor
    · intro h; cases h
    · rintro ⟨h, -, -⟩; exact absurd h h1
  · constructor
    · intro h; cases h
    · rintro ⟨-, h, -⟩; omega
  · constructor
    · intro h
      exact ⟨not_ne_iff.1 h1, Int.not_lt.1 h2, (Except.ok.inj h).symm⟩
    · rintro ⟨-, -, rfl⟩; rfl

lemma validate_some {s : List Txn} {c : Candidate} {v : Int} {p : Txn}
    (hp : latest? (pairTxns s c.location_id c.item_id) = some p)
    (h0 : 0 ≤ c.received ∧ 0 ≤ c.issued) :
    validate s c v =
      if p.date < c.date then finishTxn c p.closing_stock
      else .error .validationError := by
  unfold validate
  rw [if_pos h0, hp]

lemma validate_none {s : List Txn} {c : Candidate} {v : Int}
    (hp : latest? (pairTxns s c.location_id c.item_id) = none)
    (h0 : 0 ≤ c.received ∧ 0 ≤ c.issued) :
    validate s c v = finishTxn c v := by
  unfold validate
  rw [if_pos h0, hp]

lemma validate_notvalid {s : List Txn} {c : Candidate} {v : Int}
    (h0 : ¬(0 ≤ c.received ∧ 0 ≤ c.issued)) :
    validate s c v = .error .validationError := by
  unfold validate
  rw [if_neg h0]

lemma validate_ok_cases {s : List Txn} {c : Candidate} {v : Int} {t : Txn}
    (h : validate s c v = .ok t) :
    (0 ≤ c.received ∧ 0 ≤ c.issued) ∧
      ((∃ p, latest? (pairTxns s c.location_id c.item_id) = some p ∧
          p.date < c.date ∧ finishTxn c p.closing_stock = .ok t) ∨
        (latest? (pairTxns s c.location_id c.item_id) = none ∧
          finishTxn c v = .ok t)) := by
  by_cases h0 : 0 ≤ c.received ∧ 0 ≤ c.issued
  · refine ⟨h0, ?_⟩
    cases hp : latest? (pairTxns s c.location_id c.item_id) with
    | some p =>
      rw [validate_some hp h0] at h
      by_cases hd : p.date < c.date
      · exact .inl ⟨p, rfl, hd, by rwa [if_pos hd] at h⟩
      · rw [if_neg hd] at h; cases h
    | none =>
      rw [validate_none hp h0] at h
      exact .inr ⟨rfl, h⟩
  · rw [validate_notvalid h0] at h; cases h

lemma ledgerInv_nil : LedgerInv [] :=
  ⟨by simp, fun l i => by simp [pairTxns]⟩

lemma validate_ok_inv {s : List Txn} {c : Candidate} {v : Int} {t : Txn}
    (hs : LedgerInv s) (h : validate s c v = .ok t) : LedgerInv (s ++ [t]) := by
  obtain ⟨h0, hcase⟩ := validate_ok_cases h
  rcases hcase with ⟨p, hp, hd, hfin⟩ | ⟨hnone, hfin⟩
  · rw [finishTxn_ok] at hfin
    obtain ⟨hop, hnn, rfl⟩ := hfin
    constructor
    · intro x hx
      rcases List.mem_append.1 hx with hx' | hx'
      · exact hs.1 x hx'
      · rcases List.mem_singleton.1 hx' with rfl
        exact ⟨by simp, h0.1, h0.2, hnn⟩
    · intro l i
      rw [pairTxns_append]
      split_ifs with hm
      · obtain ⟨hm1, hm2⟩ := hm
        simp only at hm1 hm2
        subst hm1; subst hm2
        refine List.chain'_append.2 ⟨hs.2 _ _, List.chain'_singleton _, ?_⟩
        intro x hx y hy
        have hdates : List.Chain' (fun a b => a.date < b.date)
            (pairTxns s c.location_id c.item_id) :=
          (hs.2 _ _).imp (fun a b hab => hab.1)
        rw [← latest?_of_chain hdates, hp] at hx
        rcases Option.mem_some_iff.1 hx with rfl
        simp only [List.head?_cons, Option.mem_some_iff] at hy
        subst hy
        exact ⟨hd, rfl⟩
      · simpa using hs.2 l i
  · rw [finishTxn_ok] at hfin
    obtain ⟨hop, hnn, rfl⟩ := hfin
    have hemp : pairTxns s c.location_id c.item_id = [] :=
      latest?_eq_none_iff.1 hnone
    constructor
    · intro x hx
      rcases List.mem_append.1 hx with hx' | hx'
      · exact hs.1 x hx'
      · rcases List.mem_singleton.1 hx' with rfl
        exact ⟨by simp, h0.1, h0.2, hnn⟩
    · intro l i
      rw [pairTxns_append]
      split_ifs with hm
      · obtain ⟨hm1, hm2⟩ := hm
        simp only at hm1 hm2
        subst hm1; subst hm2
        rw [hemp]
        exact List.chain'_singleton _
      · simpa using hs.2 l i

lemma addTransaction_ok {s : List Txn} {c : Candidate} {v : Int} {s' : List Txn}
    (h : addTransaction s c v = .ok s') :
    ∃ t, validate s c v = .ok t ∧ s' = s ++ [t] := by
  unfold addTransaction at h
  cases hv : validate s c v with
  | error e => rw [hv] at h; cases h
  | ok t =>
    rw [hv] at h
    simp only [Except.map] at h
    exact ⟨t, rfl, (Except.ok.inj h).symm⟩

lemma addTransaction_ok_inv {s : List Txn} {c : Candidate} {v : Int}
    {s' : List Txn} (hs : LedgerInv s) (h : addTransaction s c v = .ok s') :
    LedgerInv s' := by
  obtain ⟨t, hv, rfl⟩ := addTransaction_ok h
  exact validate_ok_inv hs hv

lemma bulkGo_ok_inv {l d : Nat} {f : Nat → Int} :
    ∀ (rs : List BulkRow) (s s' : List Txn), LedgerInv s →
      bulkGo l d f s rs = .ok s' → LedgerInv s' := by
  intro rs
  induction rs with
  | nil =>
    intro s s' hs h
    unfold bulkGo at h
    exact (Except.ok.inj h) ▸ hs
  | cons r rs ih =>
    intro s s' hs h
    unfold bulkGo at h
    cases hv : validate s (r.toCandidate l d) (f r.item_id) with
    | error e => rw [hv] at h; cases h
    | ok t =>
      rw [hv] at h
      exact ih _ _ (validate_ok_inv hs hv) h

/-- Every reachable ledger state satisfies the full ledger invariant. -/
theorem ledgerInv_of_reachable {s : List Txn} (h : Reachable s) : LedgerInv s := by
  induction h with
  | nil => exact ledgerInv_nil
  | step s c v s' hr hok ih => exact addTransaction_ok_inv ih hok
  | bulk s l d rs f s' hr hok ih => exact bulkGo_ok_inv rs s s' ih hok

lemma pairTxns_dates_pairwise {s : List Txn} (hs : LedgerInv s) (l i : Nat) :
    List.Pairwise dateLT (pairTxns s l i) :=
  List.chain'_iff_pairwise.1 ((hs.2 l i).imp fun _ _ hab => hab.1)

lemma filter_date_len {l : List Txn} (h : List.Pairwise dateLT l) (d : Nat) :
    (l.filter fun t => t.date == d).length ≤ 1 := by
  induction l with
  | nil => simp
  | cons a l ih =>
    rcases List.pairwise_cons.1 h with ⟨ha, h'⟩
    by_cases hd : a.date = d
    · have hnil : (l.filter fun t => t.date == d) = [] := by
        apply List.filter_eq_nil_iff.2
        intro b hb
        simp only [beq_iff_eq]
        intro hbd
        have := ha b hb
        unfold dateLT at this
        omega
      simp [List.filter_cons, hd, hnil]
    · simp only [List.filter_cons]
      rw [if_neg (by simpa using hd)]
      exact ih h'

lemma reachable_demo : Reachable demoLedger :=
  Reachable.step [] demoC 0 demoLedger Reachable.nil (by rfl)

/-! ## Claim theorems -/

/-- C1: in every committed ledger state, every transaction satisfies
`closing_stock = opening_stock + received - issued` exactly, with
`received ≥ 0`, `issued ≥ 0` and `closing_stock ≥ 0`; and a commit whose
computed closing stock would be negative is rejected with
`NegativeStockError`, not clamped. -/
theorem claim_c1 : ∀ s : List Txn, Reachable s →
    (∀ t ∈ s, t.closing_stock = t.opening_stock + t.received - t.issued ∧
      0 ≤ t.received ∧ 0 ≤ t.issued ∧ 0 ≤ t.closing_stock) ∧
    (∀ (c : Candidate) (v : Int) (p : Txn),
      latest? (pairTxns s c.location_id c.item_id) = some p →
      0 ≤ c.received → 0 ≤ c.issued → p.date < c.date →
      c.opening_override.getD p.closing_stock = p.closing_stock →
      p.closing_stock + c.received - c.issued < 0 →
      addTransaction s c v = .error .negativeStockError) := by
  intro s hs
  have hinv := ledgerInv_of_reachable hs
  constructor
  · exact fun t ht => hinv.1 t ht
  · intro c v p hp h1 h2 hd hop hneg
    unfold addTransaction
    rw [validate_some hp ⟨h1, h2⟩, if_pos hd]
    unfold finishTxn
    rw [if_neg (not_ne_iff.2 hop), if_pos hneg]
    rfl

/-- C1 witness: the invariants instantiated on the demonstration ledger, and
a concrete over-issuing commit (issue 200 from stock 100) rejected with
`NegativeStockError`. -/
theorem claim_c1_witness :
    (demoTxn.closing_stock = demoTxn.opening_stock + demoTxn.received - demoTxn.issued ∧
      0 ≤ demoTxn.received ∧ 0 ≤ demoTxn.issued ∧ 0 ≤ demoTxn.closing_stock) ∧
    addTransaction demoLedger ⟨1, 1, 2, 0, 200, none⟩ 0 =
      .error .negativeStockError :=
  ⟨(claim_c1 demoLedger reachable_demo).1 demoTxn (by simp [demoLedger]),
   (claim_c1 demoLedger reachable_demo).2 ⟨1, 1, 2, 0, 200, none⟩ 0 demoTxn
     (by rfl) (by decide) (by decide) (by decide) (by decide) (by decide)⟩

/-- C2: in every committed ledger state, each pair's transactions form a
continuity chain (each opening stock equals the previous closing stock, at
strictly increasing dates); a committed transaction's opening stock always
equals the validator's expected opening (prior closing stock, or the seed
when no prior transaction exists); and a supplied opening that does not
match is rejected with `ContinuityError` carrying the expected and supplied
values, never silently corrected. -/
theorem claim_c2 : ∀ s : List Txn, Reachable s →
    (∀ l i : Nat, List.Chain' chainRel (pairTxns s l i)) ∧
    (∀ (c : Candidate) (v : Int) (s' : List Txn), addTransaction s c v = .ok s' →
      ∃ t, s' = s ++ [t] ∧ t.opening_stock = expectedOpening s c v) ∧
    (∀ (c : Candidate) (v w : Int) (p : Txn),
      latest? (pairTxns s c.location_id c.item_id) = some p →
      c.opening_override = some w →
      0 ≤ c.received → 0 ≤ c.issued → p.date < c.date →
      w ≠ p.closing_stock →
      addTransaction s c v = .error (.continuityError p.closing_stock w)) := by
  intro s hs
  have hinv := ledgerInv_of_reachable hs
  refine ⟨hinv.2, ?_, ?_⟩
  · intro c v s' hok
    obtain ⟨t, hv, rfl⟩ := addTransaction_ok hok
    obtain ⟨h0, hcase⟩ := validate_ok_cases hv
    rcases hcase with ⟨p, hp, hd, hfin⟩ | ⟨hnone, hfin⟩
    · rw [finishTxn_ok] at hfin
      obtain ⟨-, -, rfl⟩ := hfin
      refine ⟨_, rfl, ?_⟩
      show p.closing_stock = expectedOpening s c v
      unfold expectedOpening
      rw [hp]
    · rw [finishTxn_ok] at hfin
      obtain ⟨-, -, rfl⟩ := hfin
      refine ⟨_, rfl, ?_⟩
      show v = expectedOpening s c v
      unfold expectedOpening
      rw [hnone]
  · intro c v w p hp hw h1 h2 hd hne
    unfold addTransaction
    rw [validate_some hp ⟨h1, h2⟩, if_pos hd]
    unfold finishTxn
    rw [hw]
    simp only [Option.getD_some]
    rw [if_pos hne]
    rfl

/-- C2 witness: on the demonstration ledger, a commit supplying opening
stock 50 where the prior closing stock is 100 is rejected with
`ContinuityError expected=100 supplied=50`. -/
theorem claim_c2_witness :
    addTransaction demoLedger ⟨1, 1, 2, 10, 5, some 50⟩ 0 =
      .error (.continuityError 100 50) :=
  (claim_c2 demoLedger reachable_demo).2.2 ⟨1, 1, 2, 10, 5, some 50⟩ 0 50 demoTxn
    (by rfl) (by rfl) (by decide) (by decide) (by decide) (by decide)

/-- C7: in every committed ledger state, at most one transaction exists per
(location_id, item_id, date) triple, and a second write for an already
recorded pair and date is rejected with an error rather than stored. -/
theorem claim_c7 : ∀ s : List Txn, Reachable s →
    (∀ l i d : Nat, ((pairTxns s l i).filter fun t => t.date == d).length ≤ 1) ∧
    (∀ (c : Candidate) (v : Int),
      (∃ t ∈ pairTxns s c.location_id c.item_id, t.date = c.date) →
      ∃ e, addTransaction s c v = .error e) := by
  intro s hs
  have hinv := ledgerInv_of_reachable hs
  constructor
  · intro l i d
    exact filter_date_len (pairTxns_dates_pairwise hinv l i) d
  · rintro c v ⟨t, ht, htd⟩
    by_cases h0 : 0 ≤ c.received ∧ 0 ≤ c.issued
    · cases hp : latest? (pairTxns s c.location_id c.item_id) with
      | none =>
        rw [latest?_eq_none_iff.1 hp] at ht
        cases ht
      | some p =>
        have hle := latest?_le hp t ht
        refine ⟨.validationError, ?_⟩
        unfold addTransaction
        rw [validate_some hp h0, if_neg (by omega)]
        rfl
    · exact ⟨.validationError, by
        unfold addTransaction
        rw [validate_notvalid h0]
        rfl⟩

/-- C7 witness: on the demonstration ledger (which has a transaction for
pair (1,1) on day 1), a second commit for pair (1,1) on day 1 is rejected. -/
theorem claim_c7_witness :
    ∃ e, addTransaction demoLedger ⟨1, 1, 1, 5, 0, none⟩ 0 = .error e :=
  (claim_c7 demoLedger reachable_demo).2 ⟨1, 1, 1, 5, 0, none⟩ 0
    ⟨demoTxn, by decide, rfl⟩

lemma validate_append_disjoint {s ts : List Txn} {c : Candidate} {v : Int}
    (h : ∀ t ∈ ts, ¬(t.location_id = c.location_id ∧ t.item_id = c.item_id)) :
    validate (s ++ ts) c v = validate s c v := by
  have hnil : ts.filter
      (fun t => t.location_id == c.location_id && t.item_id == c.item_id) = [] := by
    apply List.filter_eq_nil_iff.2
    intro t ht
    simp only [Bool.and_eq_true, beq_iff_eq, not_and]
    intro h1 h2
    exact absurd ⟨h1, h2⟩ (h t ht)
  have hpt : pairTxns (s ++ ts) c.location_id c.item_id =
      pairTxns s c.location_id c.item_id := by
    unfold pairTxns
    rw [List.filter_append, hnil, List.append_nil]
  unfold validate
  rw [hpt]

lemma validate_ok_fields {s : List Txn} {c : Candidate} {v : Int} {t : Txn}
    (h : validate s c v = .ok t) :
    t.location_id = c.location_id ∧ t.item_id = c.item_id ∧ t.date = c.date := by
  obtain ⟨h0, hc⟩ := validate_ok_cases h
  rcases hc with ⟨p, -, -, hfin⟩ | ⟨-, hfin⟩ <;>
    (rw [finishTxn_ok] at hfin; obtain ⟨-, -, rfl⟩ := hfin; exact ⟨rfl, rfl, rfl⟩)

lemma bulkGo_ok_shape {l d : Nat} {f : Nat → Int} :
    ∀ (rs : List BulkRow) (s s' : List Txn), bulkGo l d f s rs = .ok s' →
      ∃ ts, s' = s ++ ts ∧ ts.length = rs.length := by
  intro rs
  induction rs with
  | nil =>
    intro s s' h
    unfold bulkGo at h
    exact ⟨[], (Except.ok.inj h).symm.trans (List.append_nil s).symm, rfl⟩
  | cons r rs ih =>
    intro s s' h
    unfold bulkGo at h
    cases hv : validate s (r.toCandidate l d) (f r.item_id) with
    | error e => rw [hv] at h; cases h
    | ok t =>
      rw [hv] at h
      obtain ⟨ts, hts, hlen⟩ := ih (s ++ [t]) s' h
      exact ⟨t :: ts, by simpa [List.append_assoc] using hts, by simp [hlen]⟩

lemma bulkGo_error {l d : Nat} {f : Nat → Int} :
    ∀ (rs : List BulkRow) (s ts : List Txn),
      (∀ t ∈ ts, t.location_id = l → t.item_id ∉ rs.map BulkRow.item_id) →
      (rs.map BulkRow.item_id).Nodup →
      ∀ i e, bulkGo l d f (s ++ ts) rs = .error (i, e) →
      ∃ r ∈ rs, r.item_id = i ∧
        validate s (r.toCandidate l d) (f r.item_id) = .error e := by
  intro rs
  induction rs with
  | nil =>
    intro s ts hdis hnd i e h
    unfold bulkGo at h
    cases h
  | cons r rs ih =>
    intro s ts hdis hnd i e h
    unfold bulkGo at h
    have hsame : validate (s ++ ts) (r.toCandidate l d) (f r.item_id) =
        validate s (r.toCandidate l d) (f r.item_id) := by
      apply validate_append_disjoint
      intro t ht
      rintro ⟨h1, h2⟩
      apply hdis t ht h1
      rw [h2]
      simp [BulkRow.toCandidate]
    rw [hsame] at h
    cases hv : validate s (r.toCandidate l d) (f r.item_id) with
    | error e' =>
      rw [hv] at h
      obtain ⟨rfl, rfl⟩ : r.item_id = i ∧ e' = e := by
        have h' := Except.error.inj h
        exact ⟨congrArg Prod.fst h', congrArg Prod.snd h'⟩
      exact ⟨r, List.mem_cons_self r rs, rfl, hv⟩
    | ok t =>
      rw [hv] at h
      replace h : bulkGo l d f (s ++ ts ++ [t]) rs = Except.error (i, e) := h
      obtain ⟨hl, hi, -⟩ := validate_ok_fields hv
      rw [List.append_assoc] at h
      simp only [List.map_cons, List.nodup_cons] at hnd
      have hdis' : ∀ x ∈ ts ++ [t], x.location_id = l →
          x.item_id ∉ rs.map BulkRow.item_id := by
        intro x hx hxl
        rcases List.mem_append.1 hx with hx' | hx'
        · intro hxm
          apply hdis x hx' hxl
          simp only [List.map_cons]
          exact List.mem_cons_of_mem _ hxm
        · rcases List.mem_singleton.1 hx' with rfl
          intro hm
          rw [hi] at hm
          exact hnd.1 (by simpa [BulkRow.toCandidate] using hm)
      obtain ⟨r', hr', hri, hvr⟩ := ih s (ts ++ [t]) hdis' hnd.2 i e h
      exact ⟨r', List.mem_cons_of_mem r hr', hri, hvr⟩

/-- C3: bulk submission is all-or-nothing.  On success the whole batch (one
row per submitted item) is appended; on failure the persisted ledger is
unchanged (zero rows from the batch survive) and the error names the
failing item together with its validation error against that item's own
pair history. -/
theorem claim_c3 : ∀ (s : List Txn) (l d : Nat) (rs : List BulkRow)
    (f : Nat → Int), (rs.map BulkRow.item_id).Nodup →
    (∀ s', addBulkTransaction s l d rs f = .ok s' →
      ∃ ts, s' = s ++ ts ∧ ts.length = rs.length) ∧
    (∀ i e, addBulkTransaction s l d rs f = .error (i, e) →
      commitBulk s l d rs f = s ∧
      ∃ r ∈ rs, r.item_id = i ∧
        validate s (r.toCandidate l d) (f r.item_id) = .error e) := by
  intro s l d rs f hnd
  constructor
  · intro s' h
    exact bulkGo_ok_shape rs s s' h
  · intro i e h
    refine ⟨by unfold commitBulk; rw [h], ?_⟩
    apply bulkGo_error rs s [] (by simp) hnd i e
    rw [List.append_nil]
    exact h

/-- C3 witness: on the demonstration ledger, a two-row batch for day 2 in
which item 2 is valid but item 1 would drive stock negative fails as a
whole: the persisted ledger is unchanged and the error names item 1 with
`NegativeStockError`. -/
theorem claim_c3_witness :
    commitBulk demoLedger 1 2 [⟨2, 50, 0, none⟩, ⟨1, 0, 500, none⟩]
        (fun _ => 0) = demoLedger ∧
    ∃ r ∈ ([⟨2, 50, 0, none⟩, ⟨1, 0, 500, none⟩] : List BulkRow),
      r.item_id = 1 ∧
      validate demoLedger (r.toCandidate 1 2) ((fun _ => (0 : Int)) r.item_id) =
        .error .negativeStockError :=
  (claim_c3 demoLedger 1 2 [⟨2, 50, 0, none⟩, ⟨1, 0, 500, none⟩]
      (fun _ => 0) (by decide)).2 1 .negativeStockError (by rfl)

/-- C4: `days_remaining` equals `current_stock / avg_usage` whenever
`avg_usage > 0`, and equals the sentinel 999 whenever `avg_usage = 0`,
regardless of current stock. -/
theorem claim_c4 : ∀ (stock : Int) (avg : ℚ),
    (0 < avg → days_remaining stock avg = (stock : ℚ) / avg) ∧
    (avg = 0 → days_remaining stock avg = 999) := by
  intro stock avg
  constructor
  · intro h
    unfold days_remaining
    rw [if_pos h]
  · rintro rfl
    unfold days_remaining
    rw [if_neg (lt_irrefl 0)]

/-- C4 witness: 10 units at average usage 2 leave 5 days; any stock at
average usage 0 yields the 999 sentinel. -/
theorem claim_c4_witness :
    days_remaining 10 2 = 5 ∧ days_remaining 7 0 = 999 :=
  ⟨((claim_c4 10 2).1 (by norm_num)).trans (by norm_num),
   (claim_c4 7 0).2 rfl⟩

/-- C5: for every finite non-negative `days_remaining` value the status is
exactly one of CRITICAL, WARNING, HEALTHY: CRITICAL iff `d < 3`, WARNING
iff `3 ≤ d ≤ 7` (both boundaries WARNING), HEALTHY iff `d > 7`. -/
theorem claim_c5 : ∀ d : ℚ, 0 ≤ d →
    (health_status d = .CRITICAL ↔ d < 3) ∧
    (health_status d = .WARNING ↔ 3 ≤ d ∧ d ≤ 7) ∧
    (health_status d = .HEALTHY ↔ 7 < d) := by
  intro d hd
  unfold health_status
  split_ifs with h1 h2
  · exact ⟨⟨fun _ => h1, fun _ => rfl⟩,
      ⟨fun hc => absurd hc (by decide),
        fun hw => absurd h1 (not_lt.2 hw.1)⟩,
      ⟨fun hc => absurd hc (by decide),
        fun h7 => absurd h1 (by linarith)⟩⟩
  · exact ⟨⟨fun hc => absurd hc (by decide), fun hlt => absurd hlt h1⟩,
      ⟨fun _ => h2, fun _ => rfl⟩,
      ⟨fun hc => absurd hc (by decide),
        fun h7 => absurd h7 (not_lt.2 h2.2)⟩⟩
  · have h3 : 3 ≤ d := not_lt.1 h1
    have h7 : 7 < d := by
      by_contra hh
      exact h2 ⟨h3, not_lt.1 hh⟩
    exact ⟨⟨fun hc => absurd hc (by decide), fun hlt => absurd hlt h1⟩,
      ⟨fun hc => absurd hc (by decide), fun hw => absurd hw h2⟩,
      ⟨fun _ => h7, fun _ => rfl⟩⟩

/-- C5 witness: the boundary values 3 and 7 are both classified WARNING,
and 2 is CRITICAL while 8 is HEALTHY. -/
theorem claim_c5_witness :
    health_status 3 = .WARNING ∧ health_status 7 = .WARNING ∧
    health_status 2 = .CRITICAL ∧ health_status 8 = .HEALTHY :=
  ⟨((claim_c5 3 (by norm_num)).2.1).2 ⟨by norm_num, by norm_num⟩,
   ((claim_c5 7 (by norm_num)).2.1).2 ⟨by norm_num, by norm_num⟩,
   ((claim_c5 2 (by norm_num)).1).2 (by norm_num),
   ((claim_c5 8 (by norm_num)).2.2).2 (by norm_num)⟩

/-- C8: the suggested reorder quantity equals
`max(0, avg_usage * lead_time_days * safety_factor - current_stock)`; it is
never negative, and it is 0 whenever `avg_usage = 0` (current stock being
non-negative, as the ledger guarantees). -/
theorem claim_c8 : ∀ avg lead safety stock : ℚ,
    suggested_reorder avg lead safety stock =
      max 0 (avg * lead * safety - stock) ∧
    0 ≤ suggested_reorder avg lead safety stock ∧
    (avg = 0 → 0 ≤ stock → suggested_reorder avg lead safety stock = 0) := by
  intro a l f c
  refine ⟨rfl, le_max_left _ _, ?_⟩
  rintro rfl hc
  unfold suggested_reorder
  rw [zero_mul, zero_mul, zero_sub]
  exact max_eq_left (neg_nonpos.2 hc)

/-- C8 witness: average usage 10, lead time 5 days, safety factor 1.5 and
stock 15 suggest 60 (the spec's worked example); zero average usage
suggests 0. -/
theorem claim_c8_witness :
    0 ≤ suggested_reorder 10 5 (3 / 2) 15 ∧
    suggested_reorder 0 5 2 30 = 0 :=
  ⟨(claim_c8 10 5 (3 / 2) 15).2.1, (claim_c8 0 5 2 30).2.2 rfl (by norm_num)⟩

/-- C9 counterexample: `days_remaining` is not monotonically non-increasing
in `avg_usage` for every fixed positive stock: at stock 10000, raising the
usage from 0 to 1 raises `days_remaining` from the sentinel 999 to 10000. -/
theorem claim_c9_counterexample :
    (0 : ℚ) ≤ 1 ∧ (0 : Int) < 10000 ∧
      days_remaining 10000 0 < days_remaining 10000 1 := by
  refine ⟨by norm_num, by norm_num, ?_⟩
  unfold days_remaining
  rw [if_neg (lt_irrefl 0), if_pos one_pos]
  norm_num

/-- C9 (amended): for fixed positive stock, `days_remaining` is
monotonically non-increasing in `avg_usage` across positive usages
(`0 < u1 ≤ u2`); monotonicity can fail only at `u1 = 0`, where the 999
sentinel applies. -/
theorem claim_c9 : ∀ (stock : Int) (u1 u2 : ℚ), 0 < stock → 0 < u1 → u1 ≤ u2 →
    days_remaining stock u2 ≤ days_remaining stock u1 := by
  intro stock u1 u2 hs h1 h12
  have h2 : 0 < u2 := lt_of_lt_of_le h1 h12
  unfold days_remaining
  rw [if_pos h1, if_pos h2]
  have hs' : (0 : ℚ) ≤ (stock : ℚ) := by exact_mod_cast le_of_lt hs
  gcongr

/-- C9 witness: with stock 10 the days remaining at usage 2 do not exceed
those at usage 1. -/
theorem claim_c9_witness : days_remaining 10 2 ≤ days_remaining 10 1 :=
  claim_c9 10 1 2 (by norm_num) (by norm_num) (by norm_num)

/-- C6: the rolling usage window holds only the pair's transactions dated on
or before the anchor; it has exactly `min 7 n` rows out of the `n` eligible
rows; it is date-ascending and consists of the most recent eligible rows;
the rolling average times the window size equals the window's total issued
quantity (an arithmetic mean); and an empty history yields average 0,
not an error. -/
theorem claim_c6 : ∀ (s : List Txn) (l i a : Nat),
    (∀ t ∈ windowTxns s l i a,
      t.location_id = l ∧ t.item_id = i ∧ t.date ≤ a) ∧
    (windowTxns s l i a).length = min 7 (pairUpTo s l i a).length ∧
    List.Sorted dateLE (windowTxns s l i a) ∧
    (∀ x ∈ sortedPairUpTo s l i a, x ∉ windowTxns s l i a →
      ∀ y ∈ windowTxns s l i a, x.date ≤ y.date) ∧
    ((windowTxns s l i a).length ≠ 0 →
      avg_daily_usage s l i a * ((windowTxns s l i a).length : ℚ) =
        ((windowTxns s l i a).map fun t => (t.issued : ℚ)).sum) ∧
    (pairUpTo s l i a = [] → avg_daily_usage s l i a = 0) := by
  intro s l i a
  have hperm := List.perm_insertionSort dateLE (pairUpTo s l i a)
  have hsorted : List.Sorted dateLE (sortedPairUpTo s l i a) :=
    List.sorted_insertionSort dateLE (pairUpTo s l i a)
  refine ⟨?_, ?_, ?_, ?_, ?_, ?_⟩
  · intro t ht
    have ht' : t ∈ sortedPairUpTo s l i a := List.drop_subset _ _ ht
    have ht'' : t ∈ pairUpTo s l i a := hperm.subset ht'
    unfold pairUpTo at ht''
    have := List.mem_filter.1 ht''
    simpa [and_assoc] using this.2
  · unfold windowTxns
    rw [List.length_drop]
    have hlen : (sortedPairUpTo s l i a).length = (pairUpTo s l i a).length :=
      hperm.length_eq
    omega
  · exact List.Pairwise.sublist (List.drop_sublist _ _) hsorted
  · intro x hx hnx y hy
    have hsplit := List.take_append_drop
      ((sortedPairUpTo s l i a).length - 7) (sortedPairUpTo s l i a)
    have hso : List.Pairwise dateLE (sortedPairUpTo s l i a) := hsorted
    rw [← hsplit] at hso hx
    have hcross := (List.pairwise_append.1 hso).2.2
    rcases List.mem_append.1 hx with hx' | hx'
    · exact hcross x hx' y hy
    · exact absurd hx' hnx
  · intro hlen
    unfold avg_daily_usage
    rw [if_neg hlen]
    have : ((windowTxns s l i a).length : ℚ) ≠ 0 := by exact_mod_cast hlen
    exact div_mul_cancel₀ _ this
  · intro hnil
    have hw : windowTxns s l i a = [] := by
      unfold windowTxns sortedPairUpTo
      rw [hnil]
      rfl
    unfold avg_daily_usage
    rw [hw]
    rfl

/-- C6 witness: on the demonstration ledger the one-row window at anchor
day 1 satisfies the mean equation, and an empty ledger yields average 0. -/
theorem claim_c6_witness :
    avg_daily_usage demoLedger 1 1 1 * ((windowTxns demoLedger 1 1 1).length : ℚ) =
      ((windowTxns demoLedger 1 1 1).map fun t => (t.issued : ℚ)).sum ∧
    avg_daily_usage [] 1 1 1 = 0 :=
  ⟨(claim_c6 demoLedger 1 1 1).2.2.2.2.1 (by decide),
   (claim_c6 [] 1 1 1).2.2.2.2.2 rfl⟩

lemma healthRow_eq_none_iff {s : List Txn} {p : Nat × Nat} :
    healthRow s p = none ↔ pairTxns s p.1 p.2 = [] := by
  unfold healthRow
  rw [Option.map_eq_none']
  exact latest?_eq_none_iff

lemma healthRow_some_fields {s : List Txn} {p : Nat × Nat} {r : HealthRow}
    (h : healthRow s p = some r) :
    r.location_id = p.1 ∧ r.item_id = p.2 ∧
      ∃ t, latest? (pairTxns s p.1 p.2) = some t ∧
        r.current_stock = t.closing_stock ∧ r.last_updated = t.date := by
  unfold healthRow at h
  cases hl : latest? (pairTxns s p.1 p.2) with
  | none => rw [hl] at h; cases h
  | some t =>
    rw [hl] at h
    simp only [Option.map_some', Option.some.injEq] at h
    subst h
    exact ⟨rfl, rfl, t, rfl, rfl, rfl⟩

lemma mem_pairKeys {s : List Txn} {p : Nat × Nat} :
    p ∈ pairKeys s ↔ ∃ t ∈ s, t.location_id = p.1 ∧ t.item_id = p.2 := by
  unfold pairKeys
  rw [List.mem_dedup, List.mem_map]
  constructor
  · rintro ⟨t, ht, rfl⟩
    exact ⟨t, ht, rfl, rfl⟩
  · rintro ⟨t, ht, h1, h2⟩
    exact ⟨t, ht, by rw [Prod.ext_iff]; exact ⟨h1, h2⟩⟩

lemma pairKeys_nonempty {s : List Txn} {p : Nat × Nat} (h : p ∈ pairKeys s) :
    pairTxns s p.1 p.2 ≠ [] := by
  obtain ⟨t, ht, h1, h2⟩ := mem_pairKeys.1 h
  exact List.ne_nil_of_mem (mem_pairTxns.2 ⟨ht, h1, h2⟩)

lemma count_eq_one_of_nodup_mem {q : Nat × Nat} :
    ∀ {ps : List (Nat × Nat)}, ps.Nodup → q ∈ ps → ps.count q = 1 := by
  intro ps
  induction ps with
  | nil => intro _ h; cases h
  | cons p ps ih =>
    intro hnd hq
    rw [List.count_cons]
    rcases List.mem_cons.1 hq with rfl | hq'
    · rw [List.count_eq_zero_of_not_mem (List.nodup_cons.1 hnd).1,
        if_pos (by simp)]
    · have hpq : ¬(p == q) = true := by
        simp only [beq_iff_eq]
        rintro rfl
        exact (List.nodup_cons.1 hnd).1 hq'
      rw [ih (List.nodup_cons.1 hnd).2 hq', if_neg hpq]

lemma countP_filterMap_healthRow {s : List Txn} (l i : Nat) :
    ∀ ps : List (Nat × Nat), (∀ p ∈ ps, pairTxns s p.1 p.2 ≠ []) →
      ((ps.filterMap (healthRow s)).countP
        fun r => r.location_id == l && r.item_id == i) = ps.count (l, i) := by
  intro ps
  induction ps with
  | nil => simp
  | cons p ps ih =>
    intro hps
    have hne := hps p (List.mem_cons_self p ps)
    cases hr : healthRow s p with
    | none => exact absurd (healthRow_eq_none_iff.1 hr) hne
    | some r =>
      obtain ⟨h1, h2, -⟩ := healthRow_some_fields hr
      rw [List.filterMap_cons_some hr, List.countP_cons, List.count_cons,
        ih (fun q hq => hps q (List.mem_cons_of_mem p hq))]
      congr 1
      by_cases hp : p = (l, i)
      · subst hp
        simp [h1, h2]
      · have hne' : ¬(r.location_id = l ∧ r.item_id = i) := by
          rintro ⟨ha, hb⟩
          apply hp
          rw [Prod.ext_iff]
          exact ⟨h1.symm.trans ha, h2.symm.trans hb⟩
        rw [if_neg (by simpa using hne'), if_neg (by simpa using hp)]

/-- C10: `listHealth` returns exactly one row per (location, item) pair
with at least one transaction, computed from that pair's most recent
transaction, and a query over a pair with no transaction history returns
an empty result set rather than an error. -/
theorem claim_c10 : ∀ (s : List Txn) (l i : Nat),
    (pairTxns s l i = [] → listHealth s (some l) (some i) = []) ∧
    (pairTxns s l i ≠ [] →
      ((listHealth s none none).countP
        fun r => r.location_id == l && r.item_id == i) = 1) ∧
    (∀ r ∈ listHealth s none none, r.location_id = l → r.item_id = i →
      ∃ t, latest? (pairTxns s l i) = some t ∧
        r.current_stock = t.closing_stock ∧ r.last_updated = t.date) := by
  intro s l i
  refine ⟨?_, ?_, ?_⟩
  · intro h
    unfold listHealth
    apply List.filterMap_eq_nil_iff.2
    intro p hp
    have hm := List.mem_filter.1 hp
    have : l = p.1 ∧ i = p.2 := by
      have := hm.2
      unfold matchesFilter at this
      simpa using this
    apply healthRow_eq_none_iff.2
    rw [← this.1, ← this.2]
    exact h
  · intro hne
    unfold listHealth
    have hfilter : ((pairKeys s).filter fun p => matchesFilter p none none) =
        pairKeys s :=
      List.filter_eq_self.2 fun p _ => rfl
    rw [hfilter,
      countP_filterMap_healthRow l i (pairKeys s) (fun p hp => pairKeys_nonempty hp)]
    have hmem : ((l, i) : Nat × Nat) ∈ pairKeys s := by
      rw [mem_pairKeys]
      obtain ⟨t, ht⟩ := List.exists_mem_of_ne_nil _ hne
      obtain ⟨hts, h1, h2⟩ := mem_pairTxns.1 ht
      exact ⟨t, hts, h1, h2⟩
    have hnd : (pairKeys s).Nodup := by
      unfold pairKeys
      exact List.nodup_dedup _
    exact count_eq_one_of_nodup_mem hnd hmem
  · intro r hr hl hi
    unfold listHealth at hr
    obtain ⟨p, hp, hrp⟩ := List.mem_filterMap.1 hr
    obtain ⟨h1, h2, t, hlt, hcs, hlu⟩ := healthRow_some_fields hrp
    rw [h1] at hl
    rw [h2] at hi
    rw [hl, hi] at hlt
    exact ⟨t, hlt, hcs, hlu⟩

/-- C10 witness: on the demonstration ledger, the pair (2,2) with no
history yields an empty result, and the pair (1,1) with history yields
exactly one row. -/
theorem claim_c10_witness :
    listHealth demoLedger (some 2) (some 2) = [] ∧
    ((listHealth demoLedger none none).countP
      fun r => r.location_id == 1 && r.item_id == 1) = 1 :=
  ⟨(claim_c10 demoLedger 2 2).1 (by decide),
   (claim_c10 demoLedger 1 1).2.1 (by decide)⟩

end SmartInventory
